import Mathlib

/-!
BitShiftGain: the gain lookup table and the per-block gain stage

A shallow embedding of `BitShiftGain/Source/PluginProcessor.cpp`.

* `NumericType` (instantiated with `float` in the source) is modelled by `ℚ` in the gain
  table.  Every table entry is `2^m` or `1 / 2^m` with `m ≤ 63`, which a binary
  floating-point number represents exactly, so the table model is exact.
* The samples are values of `F32`, a model of the 32-bit `float`, and `processBlock` takes
  the arithmetic of the samples as an argument: `F32.arith` is the arithmetic of the source,
  with overflow to infinity and flush to zero, and `exactArith` is exact rational
  arithmetic.
* `size_t` is a 64-bit unsigned integer and `uint32_t` a 32-bit one: both are natural
  numbers reduced modulo `2^64` and `2^32`.
* An access outside an array or outside the audio buffer is undefined in the source; here
  it is the result `none`.
-/

namespace BitShiftGain

/-! ## Machine integers -/

/-- The value of `static_cast<uint32_t>(x)` for a signed integer `x`. -/
def toUInt32 (x : Int) : Nat := (x % 2 ^ 32).toNat

/-- The value of `size_t(1) << i` on a 64-bit `size_t`, for `i < 64`.  A shift by 64 or more
is undefined in the source; here it gives `0`, and no property below relies on it. -/
def shiftOne (i : Nat) : Nat := (1 <<< i) % 2 ^ 64

/-! ## GainLookup -/

/-- The body of the loop of `generate_gains` at loop index `i`.  The loop runs for
`i ≤ total_size / 2 = middle_index`, so `middle_index - i` does not wrap and both indices are
inside the array. -/
def generate_gains_body (middle_index : Nat) (g : List ℚ) (i : Nat) : List ℚ :=
  let y := shiftOne i
  let upper_index := i + middle_index
  let lower_index := middle_index - i
  let as_t : ℚ := (y : ℚ)
  let g := g.set upper_index as_t
  g.set lower_index (1 / as_t)

/-- The function `GainLookup<NumericType, MinMaxValue>::generate_gains()`: a zero-initialised
array of `2 * MinMaxValue + 1` entries, the middle one set to `1`, then the loop for
`i = 1, ..., total_size / 2`. -/
def generate_gains (MinMaxValue : Nat) : List ℚ :=
  let total_size := (2 * MinMaxValue) + 1
  let g : List ℚ := List.replicate total_size 0
  let middle_index := MinMaxValue
  let g := g.set middle_index 1
  (List.range' 1 (total_size / 2)).foldl (generate_gains_body middle_index) g

/-- The static member `gains`. -/
def gains (MinMaxValue : Nat) : List ℚ := generate_gains MinMaxValue

/-- The function `GainLookup<NumericType, MinMaxValue>::from_bits(bit)`; `none` is an access
outside `gains`. -/
def from_bits (MinMaxValue : Nat) (bit : Int) : Option ℚ :=
  let index := toUInt32 (bit + (MinMaxValue : Int))
  (gains MinMaxValue)[index]?

/-! ## The arithmetic of the samples -/

/-- A value of the type `float` of the samples: a NaN, an infinity, or a finite number given
by its sign and its magnitude, which is not negative (the two zeros are `fin false 0` and
`fin true 0`). -/
inductive F32 where
  | nan : F32
  | inf (negative : Bool) : F32
  | fin (negative : Bool) (magnitude : ℚ) : F32
  deriving DecidableEq

namespace F32

/-- Rounding of a positive number to the nearest number with a 24-bit significand, ties to
the even significand, with no bound on the exponent. -/
def roundNearestEven (q : ℚ) : ℚ :=
  let e := Int.log 2 q
  let ulp : ℚ := 2 ^ (e - 23)
  let t := q / ulp
  let n := ⌊t⌋
  let frac := t - n
  let n2 :=
    if frac < 1 / 2 then n else if 1 / 2 < frac then n + 1 else if n % 2 = 0 then n else n + 1
  n2 * ulp

/-- Under `juce::ScopedNoDenormals` an operand below the smallest normal number `2^-126`
counts as zero. -/
def flushOperand (m : ℚ) : ℚ := if m < 2 ^ (-126 : Int) then 0 else m

/-- The product `x * gain` of two `float`s inside the scope of `juce::ScopedNoDenormals`,
where `gain` is finite and given by its value: the exact product is rounded to nearest, a
result of `2^128` or more is an infinity, and a result below `2^-126` is flushed to zero. -/
def mul (x : F32) (gain : ℚ) : F32 :=
  match x with
  | nan => nan
  | inf s => if gain = 0 then nan else inf (xor s (decide (gain < 0)))
  | fin s m =>
    let sign := xor s (decide (gain < 0))
    let exact := flushOperand m * flushOperand |gain|
    if exact = 0 then fin sign 0
    else
      let r := roundNearestEven exact
      if 2 ^ 128 ≤ r then inf sign
      else if r < 2 ^ (-126 : Int) then fin sign 0
      else fin sign r

end F32

/-- The arithmetic that `processBlock` applies to samples of type `S`: the value `zero` that
`buffer.clear` writes and the product `mul sample gain` of a sample with the gain. -/
structure SampleArith (S : Type) where
  zero : S
  mul : S → ℚ → S

/-- The arithmetic of the source: samples of type `float`, multiplied inside the scope of
`juce::ScopedNoDenormals`. -/
def F32.arith : SampleArith F32 := ⟨F32.fin false 0, F32.mul⟩

/-- Exact arithmetic on rational samples, with no overflow and no underflow. -/
def exactArith : SampleArith ℚ := ⟨0, fun x gain => x * gain⟩

/-! ## The audio buffer -/

/-- The part of `juce::AudioBuffer<float>` that `processBlock` uses: the block length
`getNumSamples()` and the sample memory of each channel. -/
structure AudioBuffer (S : Type) where
  numSamples : Nat
  channels : List (List S)
  deriving DecidableEq

namespace AudioBuffer

variable {S : Type}

/-- Every channel of the buffer holds `numSamples` samples. -/
def WellFormed (buffer : AudioBuffer S) : Prop :=
  ∀ ch ∈ buffer.channels, ch.length = buffer.numSamples

/-- The call `buffer.getNumSamples()`. -/
def getNumSamples (buffer : AudioBuffer S) : Nat := buffer.numSamples

/-- The call `buffer.getNumChannels()`. -/
def getNumChannels (buffer : AudioBuffer S) : Nat := buffer.channels.length

/-- The call `buffer.clear(channel, startSample, numSamples)`: the samples
`startSample, ..., startSample + numSamples - 1` of the channel become zero.  The buffer
asserts that the channel and the sample range lie inside it; `none` is a call that breaks
the assertion. -/
def clear (A : SampleArith S) (buffer : AudioBuffer S) (channel startSample numSamples : Nat) :
    Option (AudioBuffer S) :=
  match buffer.channels[channel]? with
  | none => none
  | some ch =>
    if startSample + numSamples ≤ ch.length then
      some { buffer with
        channels := buffer.channels.set channel
          (ch.take startSample ++ List.replicate numSamples A.zero
            ++ ch.drop (startSample + numSamples)) }
    else none

/-- Reading `ptr[i]` through a pointer `ptr` to the samples of channel `channel`; `none` when
the sample lies outside the channel. -/
def readSample (buffer : AudioBuffer S) (channel i : Nat) : Option S :=
  match buffer.channels[channel]? with
  | none => none
  | some ch => ch[i]?

/-- Writing `ptr[i] = x` through a pointer `ptr` to the samples of channel `channel`; `none`
when the sample lies outside the channel. -/
def writeSample (buffer : AudioBuffer S) (channel i : Nat) (x : S) : Option (AudioBuffer S) :=
  match buffer.channels[channel]? with
  | none => none
  | some ch =>
    if i < ch.length then some { buffer with channels := buffer.channels.set channel (ch.set i x) }
    else none

/-- The call `buffer.getReadPointer(channelNumber)`.  A pointer to the samples of a channel is
the number of that channel: the read and the write pointer of one channel name the same
memory.  `none` when the buffer has no such channel. -/
def getReadPointer (buffer : AudioBuffer S) (channelNumber : Nat) : Option Nat :=
  if channelNumber < buffer.getNumChannels then some channelNumber else none

/-- The call `buffer.getWritePointer(channelNumber)`. -/
def getWritePointer (buffer : AudioBuffer S) (channelNumber : Nat) : Option Nat :=
  if channelNumber < buffer.getNumChannels then some channelNumber else none

end AudioBuffer

/-! ## The processor -/

/-- The state of `AudioProcessor` that `update` and `processBlock` read and write: the channel
counts of the bus layout, the value that `apvts.getRawParameterValue("BitShift")->load()`
yields once converted to `int`, and the member `gain`, a finite `float` given by its
value. -/
structure AudioProcessor where
  totalNumInputChannels : Nat
  totalNumOutputChannels : Nat
  BitShift : Int
  gain : ℚ
  deriving DecidableEq

namespace AudioProcessor

variable {S : Type}

/-- The method `AudioProcessor::resetState()`. -/
def resetState (p : AudioProcessor) : AudioProcessor := { p with gain := 1 }

/-- The method `AudioProcessor::update()`. -/
def update (p : AudioProcessor) : Option AudioProcessor :=
  let bits := p.BitShift
  match from_bits 16 bits with
  | none => none
  | some g => some { p with gain := g }

/-- The first loop of `processBlock`: `buffer.clear(i, 0, buffer.getNumSamples())` for
`i = totalNumInputChannels, ..., totalNumOutputChannels - 1`. -/
def clearUnusedOutputs (A : SampleArith S) (p : AudioProcessor) (buffer : AudioBuffer S) :
    Option (AudioBuffer S) :=
  (List.range' p.totalNumInputChannels (p.totalNumOutputChannels - p.totalNumInputChannels)).foldlM
    (fun buffer i => buffer.clear A i 0 buffer.getNumSamples) buffer

/-- The body of the second loop of `processBlock`:
`outL[i] = inL[i] * gain; outR[i] = inR[i] * gain;`. -/
def scaleBody (A : SampleArith S) (gain : ℚ) (inL inR outL outR : Nat) (buffer : AudioBuffer S)
    (i : Nat) : Option (AudioBuffer S) :=
  match buffer.readSample inL i with
  | none => none
  | some l =>
    match buffer.writeSample outL i (A.mul l gain) with
    | none => none
    | some buffer =>
      match buffer.readSample inR i with
      | none => none
      | some r => buffer.writeSample outR i (A.mul r gain)

/-- The method `AudioProcessor::processBlock(buffer, midiMessages)` over the sample
arithmetic `A`; the MIDI buffer is not used.  The result is the processor, whose `gain` the
call to `update` has set, and the buffer. -/
def processBlock (A : SampleArith S) (p : AudioProcessor) (buffer : AudioBuffer S) :
    Option (AudioProcessor × AudioBuffer S) :=
  match p.clearUnusedOutputs A buffer with
  | none => none
  | some buffer =>
    match p.update with
    | none => none
    | some p =>
      match buffer.getReadPointer 0, buffer.getReadPointer 1,
          buffer.getWritePointer 0, buffer.getWritePointer 1 with
      | some inL, some inR, some outL, some outR =>
        match (List.range buffer.getNumSamples).foldlM
            (scaleBody A p.gain inL inR outL outR) buffer with
        | none => none
        | some buffer => some (p, buffer)
      | _, _, _, _ => none

end AudioProcessor

/-! ## Definitions used to state the properties -/

/-- The clamping `clamp(v, lo, hi)` that the specification names for the bit-shift; the
source has no such function. -/
def clampShift (v lo hi : Int) : Int := max lo (min v hi)

/-- The entry at index `j` once the loop of `generate_gains` has run for `i = 1, ..., k`:
the middle entry is `1`, the `k` entries above it are the powers of two, the `k` entries
below it their reciprocals, and the others still hold the initial zero. -/
def entryAfter (N k j : Nat) : ℚ :=
  if j = N then 1
  else if N < j ∧ j ≤ N + k then (2 : ℚ) ^ (j - N)
  else if j < N ∧ N ≤ j + k then 1 / (2 : ℚ) ^ (N - j)
  else 0

/-- A channel whose first `k` samples have been replaced by their image under `f`: what the
scaling loop has made of the channel when its index reaches `k`. -/
def scaledUpTo {S : Type} (f : S → S) : Nat → List S → List S
  | 0, l => l
  | _ + 1, [] => []
  | k + 1, x :: xs => f x :: scaledUpTo f k xs

/-! ## The table after `k` iterations of the loop -/

theorem shiftOne_eq (i : Nat) (hi : i ≤ 63) : shiftOne i = 2 ^ i := by
  unfold shiftOne
  rw [Nat.one_shiftLeft]
  apply Nat.mod_eq_of_lt
  exact Nat.pow_lt_pow_right (by decide) (by omega)

theorem total_size_half (N : Nat) : ((2 * N) + 1) / 2 = N := by omega

theorem generate_gains_body_length (N i : Nat) (g : List ℚ) :
    (generate_gains_body N g i).length = g.length := by
  simp [generate_gains_body]

theorem loop_length (N k : Nat) (g : List ℚ) :
    ((List.range' 1 k).foldl (generate_gains_body N) g).length = g.length := by
  induction k with
  | zero => simp
  | succ k ih =>
    rw [List.range'_concat, List.foldl_append]
    simp [generate_gains_body_length, ih]

theorem loop_getElem? (N k : Nat) (hk : k ≤ N) (hk63 : k ≤ 63) (j : Nat) (hj : j < 2 * N + 1) :
    ((List.range' 1 k).foldl (generate_gains_body N)
        ((List.replicate ((2 * N) + 1) (0 : ℚ)).set N 1))[j]? = some (entryAfter N k j) := by
  induction k with
  | zero =>
    simp only [List.range'_zero, List.foldl_nil, List.getElem?_set, List.length_replicate,
      List.getElem?_replicate, entryAfter]
    by_cases h : N = j
    · subst h
      rw [if_pos rfl, if_pos hj, if_pos rfl]
    · have h2 : ¬ j = N := fun e => h e.symm
      have h3 : ¬ (N < j ∧ j ≤ N + 0) := by omega
      have h4 : ¬ (j < N ∧ N ≤ j + 0) := by omega
      rw [if_neg h, if_pos hj, if_neg h2, if_neg h3, if_neg h4]
  | succ k ih =>
    have ih2 := ih (by omega) (by omega)
    have hlen := loop_length N k ((List.replicate ((2 * N) + 1) (0 : ℚ)).set N 1)
    simp only [List.length_set, List.length_replicate] at hlen
    rw [List.range'_concat, List.foldl_append]
    simp only [List.foldl_cons, List.foldl_nil, generate_gains_body, List.getElem?_set,
      List.length_set, hlen, Nat.one_mul]
    rw [shiftOne_eq (1 + k) (by omega), ih2]
    unfold entryAfter
    by_cases h1 : N - (1 + k) = j
    · have a1 : ¬ j = N := by omega
      have a2 : ¬ (N < j ∧ j ≤ N + (k + 1)) := by omega
      have a3 : j < N ∧ N ≤ j + (k + 1) := by omega
      have a4 : N - (1 + k) < 2 * N + 1 := by omega
      have a5 : N - j = 1 + k := by omega
      simp [h1, a1, a2, a3, a5, hj]
    · by_cases h2 : 1 + k + N = j
      · have a1 : ¬ j = N := by omega
        have a2 : N < j ∧ j ≤ N + (k + 1) := by omega
        have a5 : j - N = 1 + k := by omega
        simp [h1, h2, a1, a2, a5, hj]
      · by_cases a1 : j = N
        · subst a1
          rw [if_neg h1, if_neg h2, if_pos rfl, if_pos rfl]
        · by_cases a2 : N < j
          · have b1 : (N < j ∧ j ≤ N + k) ↔ (N < j ∧ j ≤ N + (k + 1)) := by omega
            have b2 : ¬ (j < N ∧ N ≤ j + k) := by omega
            have b3 : ¬ (j < N ∧ N ≤ j + (k + 1)) := by omega
            simp only [h1, h2, a1, b1, b2, b3, if_false]
          · have b1 : ¬ (N < j ∧ j ≤ N + k) := by omega
            have b2 : ¬ (N < j ∧ j ≤ N + (k + 1)) := by omega
            have b3 : (j < N ∧ N ≤ j + k) ↔ (j < N ∧ N ≤ j + (k + 1)) := by omega
            simp only [h1, h2, a1, b1, b2, b3, if_false]

theorem generate_gains_length (N : Nat) : (generate_gains N).length = 2 * N + 1 := by
  simp [generate_gains, loop_length]

theorem generate_gains_getElem? (N : Nat) (hN : N ≤ 63) (j : Nat) (hj : j < 2 * N + 1) :
    (generate_gains N)[j]? = some (entryAfter N N j) := by
  unfold generate_gains
  simp only [total_size_half]
  exact loop_getElem? N N (le_refl _) hN j hj

theorem entryAfter_eq_zpow (N j : Nat) (hj : j < 2 * N + 1) :
    entryAfter N N j = (2 : ℚ) ^ ((j : Int) - (N : Int)) := by
  unfold entryAfter
  by_cases h1 : j = N
  · subst h1
    simp
  · by_cases h2 : N < j
    · have a : N < j ∧ j ≤ N + N := by omega
      have e : ((j : Int) - (N : Int)) = ((j - N : Nat) : Int) := by omega
      rw [if_neg h1, if_pos a, e, zpow_natCast]
    · have a : ¬ (N < j ∧ j ≤ N + N) := by omega
      have b : j < N ∧ N ≤ j + N := by omega
      have e : ((j : Int) - (N : Int)) = -((N - j : Nat) : Int) := by omega
      rw [if_neg h1, if_neg a, if_pos b, e, zpow_neg, zpow_natCast, one_div]

theorem toUInt32_of_nonneg (x : Int) (h0 : 0 ≤ x) (h1 : x < 2 ^ 32) :
    toUInt32 x = x.toNat := by
  unfold toUInt32
  rw [Int.emod_eq_of_lt h0 h1]

theorem toUInt32_of_neg (x : Int) (h0 : x < 0) (h1 : -(2 ^ 31) ≤ x) :
    2 ^ 31 ≤ toUInt32 x := by
  unfold toUInt32
  have e : x % 2 ^ 32 = x + 2 ^ 32 := by
    rw [← Int.add_emod_self]
    exact Int.emod_eq_of_lt (by omega) (by omega)
  rw [e]
  omega

/-- Inside the range the lookup returns the power of two. -/
theorem from_bits_in_range (N : Nat) (hN : N ≤ 63) (b : Int) (hlo : -(N : Int) ≤ b)
    (hhi : b ≤ (N : Int)) : from_bits N b = some ((2 : ℚ) ^ b) := by
  unfold from_bits gains
  have hidx : toUInt32 (b + (N : Int)) = (b + (N : Int)).toNat :=
    toUInt32_of_nonneg _ (by omega) (by omega)
  have hlt : (b + (N : Int)).toNat < 2 * N + 1 := by omega
  simp only [hidx]
  rw [generate_gains_getElem? N hN _ hlt, entryAfter_eq_zpow N _ hlt]
  congr 2
  omega

/-- Outside the range, for a 32-bit `bit` whose sum with `MinMaxValue` is again a 32-bit
integer, the lookup is an access outside the table. -/
theorem from_bits_out_of_range (N : Nat) (hN : N ≤ 63) (b : Int)
    (hmin : -(2 ^ 31) ≤ b + (N : Int)) (hmax : b + (N : Int) < 2 ^ 31)
    (hout : b < -(N : Int) ∨ (N : Int) < b) : from_bits N b = none := by
  unfold from_bits gains
  apply List.getElem?_eq_none
  rw [generate_gains_length]
  rcases hout with h | h
  · have := toUInt32_of_neg (b + (N : Int)) (by omega) hmin
    omega
  · rw [toUInt32_of_nonneg _ (by omega) (by omega)]
    omega

/-! ## The product of the samples -/

theorem F32.log_of_representable (k : ℕ) (z : ℤ) (hk : 2 ^ 23 ≤ k) (hk2 : k < 2 ^ 24) :
    Int.log 2 ((k : ℚ) * 2 ^ z) = z + 23 := by
  have hkpos : (0 : ℚ) < k := by
    have : 0 < k := by omega
    exact_mod_cast this
  have h2 : (0 : ℚ) < 2 ^ z := zpow_pos (by norm_num) z
  have hpos : (0 : ℚ) < (k : ℚ) * 2 ^ z := mul_pos hkpos h2
  have hk3 : ((2 : ℚ) ^ (23 : ℕ)) ≤ k := by exact_mod_cast hk
  have hk4 : (k : ℚ) < (2 : ℚ) ^ (24 : ℕ) := by exact_mod_cast hk2
  have lo : ((2 : ℕ) : ℚ) ^ (z + 23) ≤ (k : ℚ) * 2 ^ z := by
    rw [Nat.cast_ofNat, zpow_add₀ (by norm_num), mul_comm]
    have : ((2 : ℚ) ^ (23 : ℤ)) = (2 : ℚ) ^ (23 : ℕ) := by norm_cast
    rw [this]
    exact mul_le_mul_of_nonneg_right hk3 h2.le
  have hi : (k : ℚ) * 2 ^ z < ((2 : ℕ) : ℚ) ^ (z + 24) := by
    rw [Nat.cast_ofNat, zpow_add₀ (by norm_num), mul_comm ((2 : ℚ) ^ z)]
    have : ((2 : ℚ) ^ (24 : ℤ)) = (2 : ℚ) ^ (24 : ℕ) := by norm_cast
    rw [this]
    exact mul_lt_mul_of_pos_right hk4 h2
  have a := (Int.zpow_le_iff_le_log (by norm_num : 1 < 2) hpos).mp lo
  have b := (Int.lt_zpow_iff_log_lt (by norm_num : 1 < 2) hpos).mp hi
  omega

/-- A number with a 24-bit significand is its own rounding. -/
theorem F32.roundNearestEven_representable (k : ℕ) (z : ℤ) (hk : 2 ^ 23 ≤ k)
    (hk2 : k < 2 ^ 24) : F32.roundNearestEven ((k : ℚ) * 2 ^ z) = (k : ℚ) * 2 ^ z := by
  unfold F32.roundNearestEven
  simp only [F32.log_of_representable k z hk hk2]
  have e : z + 23 - 23 = z := by omega
  rw [e]
  have h2 : (2 : ℚ) ^ z ≠ 0 := zpow_ne_zero z (by norm_num)
  have t : (k : ℚ) * 2 ^ z / 2 ^ z = k := by field_simp
  rw [t]
  simp

/-- Zero times a positive gain is zero. -/
theorem F32.mul_zero_pos (g : ℚ) (hg : 0 < g) :
    F32.mul (F32.fin false 0) g = F32.fin false 0 := by
  have h1 : ¬ g < 0 := not_lt.mpr hg.le
  have h2 : F32.flushOperand 0 = 0 := by
    unfold F32.flushOperand
    split_ifs <;> rfl
  simp [F32.mul, h1, h2]

/-- The product of a normal sample and a normal positive gain is the exact product when that
has a 24-bit significand and is neither `2^128` or more nor below `2^-126`. -/
theorem F32.mul_exact (s : Bool) (m g : ℚ) (k : ℕ) (z : ℤ)
    (hm : 2 ^ (-126 : Int) ≤ m) (hg : 2 ^ (-126 : Int) ≤ g)
    (hk : 2 ^ 23 ≤ k) (hk2 : k < 2 ^ 24) (hp : m * g = (k : ℚ) * 2 ^ z)
    (hlo : 2 ^ (-126 : Int) ≤ m * g) (hhi : m * g < 2 ^ 128) :
    F32.mul (F32.fin s m) g = F32.fin s (m * g) := by
  have hpos : (0 : ℚ) < 2 ^ (-126 : Int) := zpow_pos (by norm_num) _
  have hg0 : 0 < g := lt_of_lt_of_le hpos hg
  have hm0 : 0 < m := lt_of_lt_of_le hpos hm
  have hgneg : ¬ g < 0 := not_lt.mpr hg0.le
  have habs : |g| = g := abs_of_pos hg0
  have f1 : F32.flushOperand m = m := by
    unfold F32.flushOperand
    rw [if_neg (not_lt.mpr hm)]
  have f2 : F32.flushOperand g = g := by
    unfold F32.flushOperand
    rw [if_neg (not_lt.mpr hg)]
  have hne : m * g ≠ 0 := (mul_pos hm0 hg0).ne'
  have hr : F32.roundNearestEven (m * g) = m * g := by
    rw [hp]
    exact F32.roundNearestEven_representable k z hk hk2
  simp only [F32.mul, habs, f1, f2, hr, if_neg hne, if_neg (not_le.mpr hhi),
    if_neg (not_lt.mpr hlo), decide_eq_false hgneg, Bool.xor_false]

/-- The product overflows to an infinity: `2^127 * 2` is `+inf`. -/
theorem F32.mul_overflow : F32.mul (F32.fin false (2 ^ 127)) 2 = F32.inf false := by
  have hr : F32.roundNearestEven (2 ^ 128) = 2 ^ 128 := by
    have h := F32.roundNearestEven_representable (2 ^ 23) 105 (by norm_num) (by norm_num)
    norm_num at h
    norm_num
    exact h
  have f1 : F32.flushOperand (2 ^ 127) = 2 ^ 127 := by
    unfold F32.flushOperand
    norm_num
  have f2 : F32.flushOperand 2 = 2 := by
    unfold F32.flushOperand
    norm_num
  have e : (2 : ℚ) ^ 127 * 2 = 2 ^ 128 := by norm_num
  simp only [F32.mul, abs_two, f1, f2, e, hr]
  norm_num

/-- The product underflows to zero: `2^-140 * 2^-16` is `+0`. -/
theorem F32.mul_underflow :
    F32.mul (F32.fin false (2 ^ (-140 : Int))) (2 ^ (-16 : Int)) = F32.fin false 0 := by
  have f1 : F32.flushOperand (2 ^ (-140 : Int)) = 0 := by
    unfold F32.flushOperand
    rw [if_pos]
    exact zpow_lt_zpow_right₀ (by norm_num) (by norm_num)
  have hneg : ¬ ((2 : ℚ) ^ (-16 : Int) < 0) := not_lt.mpr (zpow_pos (by norm_num) _).le
  simp only [F32.mul, f1, zero_mul, decide_eq_false hneg, Bool.xor_false]
  rw [if_pos trivial]

/-- The samples of the scenario of the specification: `0.5 * 2 = 1.0` and `-0.5 * 2 = -1.0`. -/
theorem F32.mul_half_two (s : Bool) :
    F32.mul (F32.fin s (1 / 2)) ((2 : ℚ) ^ (1 : Int)) = F32.fin s 1 := by
  have h := F32.mul_exact s (1 / 2) ((2 : ℚ) ^ (1 : Int)) (2 ^ 23) (-23)
    (by norm_num) (by norm_num) (by norm_num) (by norm_num) (by norm_num) (by norm_num)
    (by norm_num)
  rw [h]
  norm_num

/-! ## The scaling loop -/

section Loops

variable {S : Type}

theorem scaledUpTo_getElem?_self (f : S → S) (k : Nat) (l : List S) :
    (scaledUpTo f k l)[k]? = l[k]? := by
  induction l generalizing k with
  | nil => cases k <;> simp [scaledUpTo]
  | cons x xs ih =>
    cases k with
    | zero => simp [scaledUpTo]
    | succ k => simp [scaledUpTo, ih]

theorem scaledUpTo_set (f : S → S) (k : Nat) (l : List S) (x : S) (hx : l[k]? = some x) :
    (scaledUpTo f k l).set k (f x) = scaledUpTo f (k + 1) l := by
  induction l generalizing k with
  | nil => simp at hx
  | cons y ys ih =>
    cases k with
    | zero =>
      simp only [List.getElem?_cons_zero, Option.some.injEq] at hx
      simp [scaledUpTo, hx]
    | succ k =>
      simp only [List.getElem?_cons_succ] at hx
      simp [scaledUpTo, ih k hx]

theorem scaledUpTo_all (f : S → S) (l : List S) :
    scaledUpTo f l.length l = l.map f := by
  induction l with
  | nil => simp [scaledUpTo]
  | cons x xs ih => simp [scaledUpTo, ih]

theorem scaleBody_eq (A : SampleArith S) (g : ℚ) (n i : Nat) (L R : List S)
    (rest : List (List S)) (a b : S) (ha : L[i]? = some a) (hb : R[i]? = some b) :
    AudioProcessor.scaleBody A g 0 1 0 1 ⟨n, L :: R :: rest⟩ i
      = some ⟨n, L.set i (A.mul a g) :: R.set i (A.mul b g) :: rest⟩ := by
  have hia : i < L.length := (List.getElem?_eq_some_iff.mp ha).1
  have hib : i < R.length := (List.getElem?_eq_some_iff.mp hb).1
  simp [AudioProcessor.scaleBody, AudioBuffer.readSample, AudioBuffer.writeSample, ha, hb,
    hia, hib]

theorem scaleLoop_upTo (A : SampleArith S) (g : ℚ) (n k : Nat) (L R : List S)
    (rest : List (List S)) (hL : k ≤ L.length) (hR : k ≤ R.length) :
    (List.range k).foldlM (AudioProcessor.scaleBody A g 0 1 0 1) ⟨n, L :: R :: rest⟩
      = some ⟨n, scaledUpTo (fun x => A.mul x g) k L
                  :: scaledUpTo (fun x => A.mul x g) k R :: rest⟩ := by
  induction k with
  | zero => simp [scaledUpTo]
  | succ k ih =>
    have hkL : k < L.length := by omega
    have hkR : k < R.length := by omega
    rw [List.range_succ, List.foldlM_append, ih (by omega) (by omega)]
    have ha : (scaledUpTo (fun x => A.mul x g) k L)[k]? = some L[k] := by
      rw [scaledUpTo_getElem?_self, List.getElem?_eq_getElem hkL]
    have hb : (scaledUpTo (fun x => A.mul x g) k R)[k]? = some R[k] := by
      rw [scaledUpTo_getElem?_self, List.getElem?_eq_getElem hkR]
    simp only [Option.some_bind, List.foldlM_cons, List.foldlM_nil, Option.bind_eq_bind]
    rw [scaleBody_eq A g n k _ _ rest _ _ ha hb]
    rw [scaledUpTo_set (fun x => A.mul x g) k L _ (List.getElem?_eq_getElem hkL),
      scaledUpTo_set (fun x => A.mul x g) k R _ (List.getElem?_eq_getElem hkR)]
    rfl

/-- The scaling loop multiplies every sample of channels 0 and 1 by the gain and leaves the
other channels as they are. -/
theorem scaleLoop_eq (A : SampleArith S) (g : ℚ) (n : Nat) (L R : List S)
    (rest : List (List S)) (hL : L.length = n) (hR : R.length = n) :
    (List.range n).foldlM (AudioProcessor.scaleBody A g 0 1 0 1) ⟨n, L :: R :: rest⟩
      = some ⟨n, L.map (fun x => A.mul x g) :: R.map (fun x => A.mul x g) :: rest⟩ := by
  rw [scaleLoop_upTo A g n n L R rest (by omega) (by omega)]
  have e1 := scaledUpTo_all (fun x => A.mul x g) L
  have e2 := scaledUpTo_all (fun x => A.mul x g) R
  rw [hL] at e1
  rw [hR] at e2
  rw [e1, e2]

/-! ## The clearing loop -/

theorem clear_whole_channel (A : SampleArith S) (n c : Nat) (chs : List (List S))
    (ch : List S) (hc : chs[c]? = some ch) (hlen : ch.length = n) :
    AudioBuffer.clear A ⟨n, chs⟩ c 0 (AudioBuffer.getNumSamples (⟨n, chs⟩ : AudioBuffer S))
      = some ⟨n, chs.set c (List.replicate n A.zero)⟩ := by
  have hd : List.drop n ch = [] := by
    rw [← hlen]
    exact List.drop_length ch
  simp [AudioBuffer.clear, AudioBuffer.getNumSamples, hc, hlen, hd]

theorem clear_missing_channel (A : SampleArith S) (n c k : Nat) (chs : List (List S))
    (hc : chs.length ≤ c) : AudioBuffer.clear A ⟨n, chs⟩ c 0 k = none := by
  simp [AudioBuffer.clear, List.getElem?_eq_none hc]

/-- The clearing loop run for the channels `lo, ..., lo + k - 1` of a well-formed buffer
that has these channels: they become silent, the others keep their samples. -/
theorem clearLoop_spec (A : SampleArith S) (n lo k : Nat) (chs : List (List S))
    (hwf : ∀ ch ∈ chs, ch.length = n) (h : k = 0 ∨ lo + k ≤ chs.length) :
    ∃ chs2 : List (List S),
      (List.range' lo k).foldlM
          (fun (buffer : AudioBuffer S) i => buffer.clear A i 0 buffer.getNumSamples) ⟨n, chs⟩
        = some ⟨n, chs2⟩
      ∧ chs2.length = chs.length
      ∧ (∀ ch ∈ chs2, ch.length = n)
      ∧ ∀ c, chs2[c]? =
          if lo ≤ c ∧ c < lo + k then some (List.replicate n A.zero) else chs[c]? := by
  induction k with
  | zero =>
    refine ⟨chs, by simp, rfl, hwf, ?_⟩
    intro c
    have : ¬ (lo ≤ c ∧ c < lo + 0) := by omega
    rw [if_neg this]
  | succ k ih =>
    have hk : lo + k < chs.length := by omega
    obtain ⟨chs1, hrun, hlen1, hwf1, hget1⟩ := ih (Or.inr (by omega))
    have hk1 : lo + k < chs1.length := by omega
    have hch : chs1[lo + k]? = some chs1[lo + k] := List.getElem?_eq_getElem hk1
    have hchlen : (chs1[lo + k]).length = n := hwf1 _ (List.getElem_mem _)
    refine ⟨chs1.set (lo + k) (List.replicate n A.zero), ?_, ?_, ?_, ?_⟩
    · rw [List.range'_concat, List.foldlM_append, hrun]
      simp only [Option.some_bind, List.foldlM_cons, List.foldlM_nil, Option.bind_eq_bind,
        Nat.one_mul]
      rw [clear_whole_channel A n (lo + k) chs1 _ hch hchlen]
      rfl
    · rw [List.length_set, hlen1]
    · intro ch hmem
      rcases List.mem_or_eq_of_mem_set hmem with h1 | h1
      · exact hwf1 ch h1
      · rw [h1, List.length_replicate]
    · intro c
      rw [List.getElem?_set, hget1 c]
      by_cases e : lo + k = c
      · have a : lo ≤ c ∧ c < lo + (k + 1) := by omega
        rw [if_pos e, if_pos hk1, if_pos a]
      · by_cases a : lo ≤ c ∧ c < lo + k
        · have a2 : lo ≤ c ∧ c < lo + (k + 1) := by omega
          rw [if_neg e, if_pos a, if_pos a2]
        · have a2 : ¬ (lo ≤ c ∧ c < lo + (k + 1)) := by omega
          rw [if_neg e, if_neg a, if_neg a2]

/-- The clearing loop has no result when it reaches a channel that the buffer does not
have. -/
theorem clearLoop_missing_channel (A : SampleArith S) (n lo k : Nat) (chs : List (List S))
    (hwf : ∀ ch ∈ chs, ch.length = n) (hk : 0 < k) (h : chs.length < lo + k) :
    (List.range' lo k).foldlM
        (fun (buffer : AudioBuffer S) i => buffer.clear A i 0 buffer.getNumSamples) ⟨n, chs⟩
      = none := by
  have hsplit : List.range' lo k
      = List.range' lo (chs.length - lo) ++ List.range' (lo + (chs.length - lo))
          (k - (chs.length - lo)) := by
    have := List.range'_append lo (chs.length - lo) (k - (chs.length - lo)) 1
    rw [Nat.one_mul] at this
    rw [this]
    congr 1
    omega
  obtain ⟨chs1, hrun, hlen1, -, -⟩ :=
    clearLoop_spec A n lo (chs.length - lo) chs hwf (by omega)
  rw [hsplit, List.foldlM_append, hrun]
  obtain ⟨j, hj⟩ : ∃ j, k - (chs.length - lo) = j + 1 := ⟨k - (chs.length - lo) - 1, by omega⟩
  rw [hj, List.range'_succ]
  simp only [Option.some_bind, List.foldlM_cons, Option.bind_eq_bind]
  rw [AudioBuffer.getNumSamples, clear_missing_channel A n _ _ chs1 (by omega)]
  rfl

end Loops

/-! ## One call of `processBlock` -/

theorem update_in_range (p : AudioProcessor) (hlo : -16 ≤ p.BitShift) (hhi : p.BitShift ≤ 16) :
    p.update = some { p with gain := (2 : ℚ) ^ p.BitShift } := by
  unfold AudioProcessor.update
  simp only []
  rw [from_bits_in_range 16 (by decide) p.BitShift (by omega) (by omega)]

section Block

variable {S : Type}

/-- One call of `processBlock` on a well-formed buffer with at least two channels and with
every channel that the clearing loop visits: the clearing loop leaves the channels
`L :: R :: rest`, and the scaling loop then multiplies `L` and `R` by the new gain. -/
theorem processBlock_spec (A : SampleArith S) (p : AudioProcessor) (n : Nat)
    (chs : List (List S)) (hwf : ∀ ch ∈ chs, ch.length = n) (h2 : 2 ≤ chs.length)
    (hout : p.totalNumOutputChannels ≤ p.totalNumInputChannels
      ∨ p.totalNumOutputChannels ≤ chs.length)
    (hlo : -16 ≤ p.BitShift) (hhi : p.BitShift ≤ 16) :
    ∃ (L R : List S) (rest : List (List S)),
      (∀ c, (L :: R :: rest)[c]? =
        if p.totalNumInputChannels ≤ c ∧ c < p.totalNumOutputChannels
        then some (List.replicate n A.zero) else chs[c]?)
      ∧ L.length = n ∧ R.length = n ∧ (∀ ch ∈ rest, ch.length = n)
      ∧ (L :: R :: rest).length = chs.length
      ∧ p.processBlock A ⟨n, chs⟩
        = some ({ p with gain := (2 : ℚ) ^ p.BitShift },
            ⟨n, L.map (fun x => A.mul x ((2 : ℚ) ^ p.BitShift))
                  :: R.map (fun x => A.mul x ((2 : ℚ) ^ p.BitShift)) :: rest⟩) := by
  obtain ⟨chs2, hrun, hlen2, hwf2, hget2⟩ :=
    clearLoop_spec A n p.totalNumInputChannels
      (p.totalNumOutputChannels - p.totalNumInputChannels) chs hwf (by omega)
  match chs2, hrun, hlen2, hwf2, hget2 with
  | [], _, hlen2, _, _ => simp at hlen2; omega
  | [_], _, hlen2, _, _ => simp at hlen2; omega
  | L :: R :: rest, hrun, hlen2, hwf2, hget2 =>
    have hL : L.length = n := hwf2 L (by simp)
    have hR : R.length = n := hwf2 R (by simp)
    refine ⟨L, R, rest, ?_, hL, hR, ?_, hlen2, ?_⟩
    · intro c
      rw [hget2 c]
      by_cases a : p.totalNumInputChannels ≤ c ∧ c < p.totalNumOutputChannels
      · have a2 : p.totalNumInputChannels ≤ c ∧
            c < p.totalNumInputChannels
              + (p.totalNumOutputChannels - p.totalNumInputChannels) := by omega
        rw [if_pos a, if_pos a2]
      · have a2 : ¬ (p.totalNumInputChannels ≤ c ∧
            c < p.totalNumInputChannels
              + (p.totalNumOutputChannels - p.totalNumInputChannels)) := by omega
        rw [if_neg a, if_neg a2]
    · intro ch hmem
      exact hwf2 ch (by simp [hmem])
    · unfold AudioProcessor.processBlock AudioProcessor.clearUnusedOutputs
      rw [hrun]
      simp only [update_in_range p hlo hhi, AudioBuffer.getReadPointer,
        AudioBuffer.getWritePointer, AudioBuffer.getNumChannels, AudioBuffer.getNumSamples,
        List.length_cons]
      have h0 : 0 < rest.length + 1 + 1 := by omega
      have h1 : 1 < rest.length + 1 + 1 := by omega
      simp only [if_pos h0, if_pos h1]
      rw [scaleLoop_eq A _ n L R rest hL hR]

/-- The method `processBlock` has no result when the layout names an output channel, without
an input channel, that the buffer does not have. -/
theorem processBlock_missing_channel (A : SampleArith S) (p : AudioProcessor)
    (buffer : AudioBuffer S) (hwf : buffer.WellFormed)
    (h1 : p.totalNumInputChannels < p.totalNumOutputChannels)
    (h2 : buffer.getNumChannels < p.totalNumOutputChannels) :
    p.processBlock A buffer = none := by
  obtain ⟨n, chs⟩ := buffer
  have hrun := clearLoop_missing_channel A n p.totalNumInputChannels
    (p.totalNumOutputChannels - p.totalNumInputChannels) chs hwf (by omega)
    (by simp only [AudioBuffer.getNumChannels] at h2; omega)
  unfold AudioProcessor.processBlock AudioProcessor.clearUnusedOutputs
  rw [hrun]

/-- What one call of `processBlock` does to the samples of a well-formed buffer: the gain
becomes the power of two; a channel that the clearing loop visits is silent afterwards, when
zero times the gain is zero; the samples of channels 0 and 1 that it does not visit are
multiplied by the gain; every other channel keeps its samples. -/
theorem processBlock_samples (A : SampleArith S) (p : AudioProcessor) (buffer : AudioBuffer S)
    (hwf : buffer.WellFormed) (h2 : 2 ≤ buffer.getNumChannels)
    (hout : p.totalNumOutputChannels ≤ p.totalNumInputChannels
      ∨ p.totalNumOutputChannels ≤ buffer.getNumChannels)
    (hlo : -16 ≤ p.BitShift) (hhi : p.BitShift ≤ 16) :
    ∃ out : AudioBuffer S,
      p.processBlock A buffer = some ({ p with gain := (2 : ℚ) ^ p.BitShift }, out)
      ∧ out.numSamples = buffer.numSamples
      ∧ out.getNumChannels = buffer.getNumChannels
      ∧ out.WellFormed
      ∧ (A.mul A.zero ((2 : ℚ) ^ p.BitShift) = A.zero →
          ∀ c, p.totalNumInputChannels ≤ c → c < p.totalNumOutputChannels →
          out.channels[c]? = some (List.replicate buffer.numSamples A.zero))
      ∧ (∀ c i x, c < 2 → ¬ (p.totalNumInputChannels ≤ c ∧ c < p.totalNumOutputChannels) →
          buffer.readSample c i = some x →
          out.readSample c i = some (A.mul x ((2 : ℚ) ^ p.BitShift)))
      ∧ (∀ c, 2 ≤ c → ¬ (p.totalNumInputChannels ≤ c ∧ c < p.totalNumOutputChannels) →
          out.channels[c]? = buffer.channels[c]?) := by
  obtain ⟨n, chs⟩ := buffer
  obtain ⟨L, R, rest, hget, hL, hR, hrest, hlen, hrun⟩ :=
    processBlock_spec A p n chs hwf h2 hout hlo hhi
  refine ⟨_, hrun, rfl, ?_, ?_, ?_, ?_, ?_⟩
  · simpa [AudioBuffer.getNumChannels] using hlen
  · intro ch hmem
    simp only [List.mem_cons] at hmem
    rcases hmem with h | h | h
    · rw [h, List.length_map]; exact hL
    · rw [h, List.length_map]; exact hR
    · exact hrest ch h
  · intro hz c h1 h3
    have hc := hget c
    rw [if_pos ⟨h1, h3⟩] at hc
    match c, hc with
    | 0, hc =>
      simp only [List.getElem?_cons_zero, Option.some.injEq] at hc
      simp [hc, hz]
    | 1, hc =>
      simp only [List.getElem?_cons_succ, List.getElem?_cons_zero, Option.some.injEq] at hc
      simp [hc, hz]
    | c + 2, hc =>
      simpa using hc
  · intro c i x hc hnot hread
    have hgc := hget c
    rw [if_neg hnot] at hgc
    match c, hc, hgc, hread with
    | 0, _, hgc, hread =>
      simp only [List.getElem?_cons_zero] at hgc
      simp only [AudioBuffer.readSample, ← hgc] at hread
      simp [AudioBuffer.readSample, List.getElem?_map, hread]
    | 1, _, hgc, hread =>
      simp only [List.getElem?_cons_succ, List.getElem?_cons_zero] at hgc
      simp only [AudioBuffer.readSample, ← hgc] at hread
      simp [AudioBuffer.readSample, List.getElem?_map, hread]
  · intro c hc hnot
    have hgc := hget c
    rw [if_neg hnot] at hgc
    match c, hc, hgc with
    | c + 2, _, hgc => simpa using hgc

/-- One call of `processBlock` on a two-channel block when the clearing loop has nothing to
clear. -/
theorem processBlock_stereo (A : SampleArith S) (p : AudioProcessor) (n : Nat) (L R : List S)
    (hL : L.length = n) (hR : R.length = n)
    (hio : p.totalNumOutputChannels ≤ p.totalNumInputChannels)
    (hlo : -16 ≤ p.BitShift) (hhi : p.BitShift ≤ 16) :
    p.processBlock A ⟨n, [L, R]⟩
      = some ({ p with gain := (2 : ℚ) ^ p.BitShift },
          ⟨n, [L.map (fun x => A.mul x ((2 : ℚ) ^ p.BitShift)),
               R.map (fun x => A.mul x ((2 : ℚ) ^ p.BitShift))]⟩) := by
  have hwf : ∀ ch ∈ [L, R], ch.length = n := by
    intro ch hmem
    simp only [List.mem_cons, List.mem_singleton, List.not_mem_nil, or_false] at hmem
    rcases hmem with h | h
    · rw [h]; exact hL
    · rw [h]; exact hR
  obtain ⟨L2, R2, rest, hget, -, -, -, hlen, hrun⟩ :=
    processBlock_spec A p n [L, R] hwf (by simp) (Or.inl hio) hlo hhi
  have hsame : L2 :: R2 :: rest = [L, R] := by
    apply List.ext_getElem?
    intro c
    rw [hget c]
    have : ¬ (p.totalNumInputChannels ≤ c ∧ c < p.totalNumOutputChannels) := by omega
    rw [if_neg this]
  simp only [List.cons.injEq] at hsame
  obtain ⟨e1, e2, e3⟩ := hsame
  rw [hrun, e1, e2, e3]

end Block

theorem two_zpow_ne_zero (b : Int) : (2 : ℚ) ^ b ≠ 0 := zpow_ne_zero b (by norm_num)

theorem two_zpow_mul_neg (b : Int) : (2 : ℚ) ^ b * (2 : ℚ) ^ (-b) = 1 := by
  rw [zpow_neg]
  exact mul_inv_cancel₀ (two_zpow_ne_zero b)

/-! ## The lookup table -/

/-- Claim C1: for every integer `b` with `-16 ≤ b ≤ 16`, `GainLookup<float,16>::from_bits(b)`
is exactly `2^b`, that is `2^b` for `b ≥ 0` and `1 / 2^(-b)` for `b < 0`; in particular the
values of the static assertions: `from_bits(0) = 1`, `from_bits(-16) = 1/65536 =
0.0000152587890625`, `from_bits(-15) = 0.000030517578125`, `from_bits(4) = 16` and
`from_bits(16) = 65536`. -/
theorem from_bits_exact_power_of_two (b : Int) (hlo : -16 ≤ b) (hhi : b ≤ 16) :
    from_bits 16 b = some ((2 : ℚ) ^ b)
    ∧ (0 ≤ b → from_bits 16 b = some ((2 : ℚ) ^ b.toNat))
    ∧ (b < 0 → from_bits 16 b = some (1 / (2 : ℚ) ^ (-b).toNat))
    ∧ from_bits 16 0 = some 1
    ∧ from_bits 16 (-16) = some (1 / 65536)
    ∧ from_bits 16 (-16) = some (152587890625 / 10000000000000000)
    ∧ from_bits 16 (-15) = some (30517578125 / 1000000000000000)
    ∧ from_bits 16 4 = some 16
    ∧ from_bits 16 16 = some 65536 := by
  have key : ∀ c : Int, -16 ≤ c → c ≤ 16 → from_bits 16 c = some ((2 : ℚ) ^ c) :=
    fun c h1 h2 => from_bits_in_range 16 (by decide) c (by omega) (by omega)
  refine ⟨key b hlo hhi, ?_, ?_, ?_, ?_, ?_, ?_, ?_, ?_⟩
  · intro h0
    rw [key b hlo hhi, ← zpow_natCast, Int.toNat_of_nonneg h0]
  · intro h0
    have e : b = -(((-b).toNat : Nat) : Int) := by omega
    rw [key b hlo hhi]
    conv_lhs => rw [e]
    rw [zpow_neg, zpow_natCast, one_div]
  · rw [key 0 (by decide) (by decide)]; norm_num
  · rw [key (-16) (by decide) (by decide)]; norm_num [zpow_neg]
  · rw [key (-16) (by decide) (by decide)]; norm_num [zpow_neg]
  · rw [key (-15) (by decide) (by decide)]; norm_num [zpow_neg]
  · rw [key 4 (by decide) (by decide)]; norm_num
  · rw [key 16 (by decide) (by decide)]; norm_num

/-- Witness of claim C1 at `b = -3`. -/
theorem from_bits_exact_power_of_two_witness :
    (-16 : Int) ≤ -3 ∧ (-3 : Int) ≤ 16 ∧ from_bits 16 (-3) = some ((2 : ℚ) ^ (-3 : Int)) :=
  ⟨by decide, by decide, (from_bits_exact_power_of_two (-3) (by decide) (by decide)).1⟩

/-- Claim C3: for every integer `b` with `-16 ≤ b ≤ 16`, `from_bits(b) * from_bits(-b)` is
exactly `1`. -/
theorem from_bits_reciprocal_symmetry (b : Int) (hlo : -16 ≤ b) (hhi : b ≤ 16) :
    ∃ x y : ℚ, from_bits 16 b = some x ∧ from_bits 16 (-b) = some y ∧ x * y = 1 :=
  ⟨(2 : ℚ) ^ b, (2 : ℚ) ^ (-b),
    from_bits_in_range 16 (by decide) b (by omega) (by omega),
    from_bits_in_range 16 (by decide) (-b) (by omega) (by omega),
    two_zpow_mul_neg b⟩

/-- Witness of claim C3 at `b = 5`. -/
theorem from_bits_reciprocal_symmetry_witness :
    (-16 : Int) ≤ 5 ∧ (5 : Int) ≤ 16
    ∧ ∃ x y : ℚ, from_bits 16 5 = some x ∧ from_bits 16 (-5) = some y ∧ x * y = 1 :=
  ⟨by decide, by decide, from_bits_reciprocal_symmetry 5 (by decide) (by decide)⟩

/-- Claim C4: the gain table is strictly increasing over its whole domain: for all integers
`b1 < b2` with `-16 ≤ b1` and `b2 ≤ 16`, `from_bits(b1) < from_bits(b2)`; and each of the 33
entries of `gains` is strictly greater than the entry before it. -/
theorem gains_strictly_increasing (b1 b2 : Int) (h1 : -16 ≤ b1) (h12 : b1 < b2)
    (h2 : b2 ≤ 16) :
    (∃ x y : ℚ, from_bits 16 b1 = some x ∧ from_bits 16 b2 = some y ∧ x < y)
    ∧ (gains 16).length = 33
    ∧ ∀ i, i < 32 → ∃ x y : ℚ, (gains 16)[i]? = some x ∧ (gains 16)[i + 1]? = some y ∧ x < y := by
  refine ⟨⟨(2 : ℚ) ^ b1, (2 : ℚ) ^ b2,
    from_bits_in_range 16 (by decide) b1 (by omega) (by omega),
    from_bits_in_range 16 (by decide) b2 (by omega) (by omega),
    zpow_lt_zpow_right₀ (by norm_num) h12⟩, generate_gains_length 16, ?_⟩
  intro i hi
  refine ⟨entryAfter 16 16 i, entryAfter 16 16 (i + 1),
    generate_gains_getElem? 16 (by decide) i (by omega),
    generate_gains_getElem? 16 (by decide) (i + 1) (by omega), ?_⟩
  rw [entryAfter_eq_zpow 16 i (by omega), entryAfter_eq_zpow 16 (i + 1) (by omega)]
  apply zpow_lt_zpow_right₀ (by norm_num)
  omega

/-- Witness of claim C4 at `b1 = -16`, `b2 = 16`. -/
theorem gains_strictly_increasing_witness :
    (-16 : Int) ≤ -16 ∧ (-16 : Int) < 16 ∧ (16 : Int) ≤ 16
    ∧ ∃ x y : ℚ, from_bits 16 (-16) = some x ∧ from_bits 16 16 = some y ∧ x < y :=
  ⟨by decide, by decide, by decide,
    (gains_strictly_increasing (-16) 16 (by decide) (by decide) (by decide)).1⟩

/-- Claim C6: for every 32-bit `int b` for which `b + 16` does not overflow, the index
`static_cast<uint32_t>(b + 16)` is below the table size 33 if and only if `-16 ≤ b ≤ 16`; so
the lookup succeeds for every `b` in `[-16, 16]` and is an access outside the table for every
other `b`, a negative `b + 16` wrapping to an index of at least `2^31`. -/
theorem from_bits_in_bounds_iff (b : Int) (hmin : -(2 ^ 31) ≤ b) (hmax : b + 16 ≤ 2 ^ 31 - 1) :
    (gains 16).length = 33
    ∧ (toUInt32 (b + 16) < (gains 16).length ↔ (-16 ≤ b ∧ b ≤ 16))
    ∧ ((∃ g, from_bits 16 b = some g) ↔ (-16 ≤ b ∧ b ≤ 16))
    ∧ (¬ (-16 ≤ b ∧ b ≤ 16) → from_bits 16 b = none)
    ∧ (b + 16 < 0 → 2 ^ 31 ≤ toUInt32 (b + 16)) := by
  have hlen : (gains 16).length = 33 := generate_gains_length 16
  have hneg : b + 16 < 0 → 2 ^ 31 ≤ toUInt32 (b + 16) :=
    fun h => toUInt32_of_neg (b + 16) h (by omega)
  have hnone : ¬ (-16 ≤ b ∧ b ≤ 16) → from_bits 16 b = none := by
    intro h
    apply from_bits_out_of_range 16 (by decide) b
    · push_cast; omega
    · push_cast; omega
    · push_cast; omega
  refine ⟨hlen, ?_, ?_, hnone, hneg⟩
  · rw [hlen]
    constructor
    · intro h
      by_contra hc
      by_cases hn : b + 16 < 0
      · have := hneg hn
        omega
      · rw [toUInt32_of_nonneg _ (by omega) (by omega)] at h
        omega
    · intro h
      rw [toUInt32_of_nonneg _ (by omega) (by omega)]
      omega
  · constructor
    · rintro ⟨g, hg⟩
      by_contra hc
      rw [hnone hc] at hg
      exact Option.noConfusion hg
    · intro h
      exact ⟨_, from_bits_in_range 16 (by decide) b (by omega) (by omega)⟩

/-- Witness of claim C6 at `b = -17`, the first value below the range. -/
theorem from_bits_in_bounds_iff_witness :
    -(2 ^ 31) ≤ (-17 : Int) ∧ (-17 : Int) + 16 ≤ 2 ^ 31 - 1
    ∧ from_bits 16 (-17) = none ∧ 2 ^ 31 ≤ toUInt32 (-17 + 16) :=
  ⟨by decide, by decide,
    (from_bits_in_bounds_iff (-17) (by decide) (by decide)).2.2.2.1 (by decide),
    (from_bits_in_bounds_iff (-17) (by decide) (by decide)).2.2.2.2 (by decide)⟩

/-- Claim C9: for every `MinMaxValue = N` with `0 ≤ N ≤ 63`, where `size_t(1) << i` does not
overflow for any `i ≤ N`, `generate_gains` returns exactly `2N + 1` entries, entry `N` is `1`
and, for every `m` with `1 ≤ m ≤ N`, entry `N + m` is `2^m` and entry `N - m` is `1 / 2^m`;
the loop bound `total_size / 2` is `N`, so every index from `0` to `2N` is written and none
keeps its zero initial value. -/
theorem generate_gains_correct (N : Nat) (hN : N ≤ 63) :
    (generate_gains N).length = 2 * N + 1
    ∧ (generate_gains N)[N]? = some 1
    ∧ (∀ m, 1 ≤ m → m ≤ N →
        (generate_gains N)[N + m]? = some ((2 : ℚ) ^ m)
        ∧ (generate_gains N)[N - m]? = some (1 / (2 : ℚ) ^ m))
    ∧ ((2 * N) + 1) / 2 = N
    ∧ (∀ i, i ≤ N → shiftOne i = 2 ^ i)
    ∧ ∀ j, j ≤ 2 * N → ∃ x : ℚ, (generate_gains N)[j]? = some x ∧ x ≠ 0 := by
  refine ⟨generate_gains_length N, ?_, ?_, total_size_half N, ?_, ?_⟩
  · rw [generate_gains_getElem? N hN N (by omega)]
    simp [entryAfter]
  · intro m h1 h2
    constructor
    · rw [generate_gains_getElem? N hN (N + m) (by omega)]
      have a1 : ¬ N + m = N := by omega
      have a2 : N < N + m ∧ N + m ≤ N + N := by omega
      have a3 : N + m - N = m := by omega
      simp only [entryAfter, if_neg a1, if_pos a2, a3]
    · rw [generate_gains_getElem? N hN (N - m) (by omega)]
      have a1 : ¬ N - m = N := by omega
      have a2 : ¬ (N < N - m ∧ N - m ≤ N + N) := by omega
      have a3 : N - m < N ∧ N ≤ N - m + N := by omega
      have a4 : N - (N - m) = m := by omega
      simp only [entryAfter, if_neg a1, if_neg a2, if_pos a3, a4]
  · intro i hi
    exact shiftOne_eq i (by omega)
  · intro j hj
    refine ⟨_, generate_gains_getElem? N hN j (by omega), ?_⟩
    rw [entryAfter_eq_zpow N j (by omega)]
    exact two_zpow_ne_zero _

/-- Witness of claim C9 at `N = 63`, the largest half-width of the claim. -/
theorem generate_gains_correct_witness :
    63 ≤ 63 ∧ (generate_gains 63).length = 2 * 63 + 1
    ∧ (generate_gains 63)[63 + 63]? = some ((2 : ℚ) ^ 63)
    ∧ (generate_gains 63)[63 - 63]? = some (1 / (2 : ℚ) ^ 63) :=
  ⟨by decide, (generate_gains_correct 63 (by decide)).1,
    ((generate_gains_correct 63 (by decide)).2.2.1 63 (by decide) (by decide)).1,
    ((generate_gains_correct 63 (by decide)).2.2.1 63 (by decide) (by decide)).2⟩

/-! ## The gain stage -/

/-- Claim C2: for every bit-shift `b` in `[-16, 16]` and every stereo block whose left and
right channels both have `n` samples, `processBlock` leaves both channels with exactly `n`
samples and sets `output[ch][i] = input[ch][i] * from_bits(b)` for both channels and every
index `i < n`, the product being that of the sample arithmetic (for `F32.arith`, the `float`
product of the source, with its overflow and its flush to zero); an empty block stays empty.
The block is stereo in and stereo out, so the clearing loop has no channel to clear.  In the
arithmetic of the source the input `[0.5, -0.5]` on both channels with bit-shift `1` gives
`[1.0, -1.0]` on both channels. -/
theorem processBlock_scales_stereo {S : Type} (A : SampleArith S) (p : AudioProcessor)
    (n : Nat) (L R : List S)
    (hlo : -16 ≤ p.BitShift) (hhi : p.BitShift ≤ 16)
    (hL : L.length = n) (hR : R.length = n)
    (hio : p.totalNumOutputChannels ≤ p.totalNumInputChannels) :
    ∃ (g : ℚ) (outL outR : List S),
      from_bits 16 p.BitShift = some g
      ∧ p.processBlock A ⟨n, [L, R]⟩ = some ({ p with gain := g }, ⟨n, [outL, outR]⟩)
      ∧ outL.length = n ∧ outR.length = n
      ∧ (∀ (i : Nat) (x : S), L[i]? = some x → outL[i]? = some (A.mul x g))
      ∧ (∀ (i : Nat) (x : S), R[i]? = some x → outR[i]? = some (A.mul x g))
      ∧ (n = 0 → outL = [] ∧ outR = [])
      ∧ AudioProcessor.processBlock F32.arith ⟨2, 2, 1, 1⟩
          ⟨2, [[F32.fin false (1 / 2), F32.fin true (1 / 2)],
               [F32.fin false (1 / 2), F32.fin true (1 / 2)]]⟩
          = some (⟨2, 2, 1, 2⟩,
              ⟨2, [[F32.fin false 1, F32.fin true 1], [F32.fin false 1, F32.fin true 1]]⟩) := by
  refine ⟨(2 : ℚ) ^ p.BitShift, L.map (fun x => A.mul x ((2 : ℚ) ^ p.BitShift)),
    R.map (fun x => A.mul x ((2 : ℚ) ^ p.BitShift)),
    from_bits_in_range 16 (by decide) p.BitShift (by omega) (by omega),
    processBlock_stereo A p n L R hL hR hio hlo hhi, ?_, ?_, ?_, ?_, ?_, ?_⟩
  · rw [List.length_map, hL]
  · rw [List.length_map, hR]
  · intro i x hx
    rw [List.getElem?_map, hx]
    rfl
  · intro i x hx
    rw [List.getElem?_map, hx]
    rfl
  · intro h0
    subst h0
    rw [List.length_eq_zero] at hL hR
    subst hL
    subst hR
    exact ⟨rfl, rfl⟩
  · rw [processBlock_stereo F32.arith ⟨2, 2, 1, 1⟩ 2
      [F32.fin false (1 / 2), F32.fin true (1 / 2)]
      [F32.fin false (1 / 2), F32.fin true (1 / 2)] rfl rfl
      (by decide) (by decide) (by decide)]
    simp only [F32.arith, List.map_cons, List.map_nil, F32.mul_half_two]
    norm_num

/-- Witness of claim C2 in the arithmetic of the source, at the scenario of the
specification: the input `[0.5, -0.5]` on both channels with bit-shift `1`. -/
theorem processBlock_scales_stereo_witness :
    (-16 : Int) ≤ 1 ∧ (1 : Int) ≤ 16
    ∧ [F32.fin false (1 / 2), F32.fin true (1 / 2)].length = 2
    ∧ (2 : Nat) ≤ 2
    ∧ ∃ (g : ℚ) (outL outR : List F32),
      from_bits 16 1 = some g
      ∧ AudioProcessor.processBlock F32.arith ⟨2, 2, 1, 1⟩
          ⟨2, [[F32.fin false (1 / 2), F32.fin true (1 / 2)],
               [F32.fin false (1 / 2), F32.fin true (1 / 2)]]⟩
          = some (⟨2, 2, 1, g⟩, ⟨2, [outL, outR]⟩)
      ∧ outL.length = 2 ∧ outR.length = 2
      ∧ (∀ (i : Nat) (x : F32), [F32.fin false (1 / 2), F32.fin true (1 / 2)][i]? = some x →
          outL[i]? = some (F32.arith.mul x g))
      ∧ (∀ (i : Nat) (x : F32), [F32.fin false (1 / 2), F32.fin true (1 / 2)][i]? = some x →
          outR[i]? = some (F32.arith.mul x g))
      ∧ (2 = 0 → outL = [] ∧ outR = [])
      ∧ AudioProcessor.processBlock F32.arith ⟨2, 2, 1, 1⟩
          ⟨2, [[F32.fin false (1 / 2), F32.fin true (1 / 2)],
               [F32.fin false (1 / 2), F32.fin true (1 / 2)]]⟩
          = some (⟨2, 2, 1, 2⟩,
              ⟨2, [[F32.fin false 1, F32.fin true 1], [F32.fin false 1, F32.fin true 1]]⟩) :=
  ⟨by decide, by decide, rfl, by decide,
    processBlock_scales_stereo F32.arith ⟨2, 2, 1, 1⟩ 2
      [F32.fin false (1 / 2), F32.fin true (1 / 2)]
      [F32.fin false (1 / 2), F32.fin true (1 / 2)]
      (by decide) (by decide) rfl rfl (by decide)⟩

/-- Claim C5 as stated fails: with the parameter value `17` the clamped lookup
`from_bits(clamp(17, -16, 16))` is `65536`, but `update` passes `17` to `from_bits`
unclamped, the index `33` is outside the table, and no such gain is stored. -/
theorem update_does_not_clamp :
    from_bits 16 (clampShift 17 (-16) 16) = some 65536
    ∧ toUInt32 (17 + 16) = 33
    ∧ AudioProcessor.update ⟨2, 2, 17, 1⟩ = none
    ∧ ¬ ∃ p2 : AudioProcessor, AudioProcessor.update ⟨2, 2, 17, 1⟩ = some p2
        ∧ some p2.gain = from_bits 16 (clampShift 17 (-16) 16) := by
  have h : AudioProcessor.update ⟨2, 2, 17, 1⟩ = none := by decide
  refine ⟨by decide, by decide, h, ?_⟩
  rintro ⟨p2, h2, -⟩
  rw [h] at h2
  exact Option.noConfusion h2

/-- Claim C5, amended: `update` passes the value it reads to `from_bits` without clamping.
For every 32-bit parameter value `v` whose sum with 16 does not overflow: when
`-16 ≤ v ≤ 16` the gain stored is `from_bits(v)`, which is `from_bits(clamp(v, -16, 16))`,
and the index that reaches the table is in `[0, 32]`; when `v` is outside that range the
index that reaches the table is outside `[0, 32]` and the lookup is an access outside the
table. -/
theorem update_gain_in_declared_range (p : AudioProcessor)
    (hmin : -(2 ^ 31) ≤ p.BitShift) (hmax : p.BitShift + 16 ≤ 2 ^ 31 - 1) :
    ((-16 ≤ p.BitShift ∧ p.BitShift ≤ 16) →
      ∃ g : ℚ, from_bits 16 (clampShift p.BitShift (-16) 16) = some g
        ∧ from_bits 16 p.BitShift = some g
        ∧ p.update = some { p with gain := g }
        ∧ toUInt32 (p.BitShift + 16) ≤ 32)
    ∧ (¬ (-16 ≤ p.BitShift ∧ p.BitShift ≤ 16) →
      32 < toUInt32 (p.BitShift + 16) ∧ p.update = none) := by
  constructor
  · rintro ⟨hlo, hhi⟩
    have hc : clampShift p.BitShift (-16) 16 = p.BitShift := by
      unfold clampShift
      omega
    refine ⟨(2 : ℚ) ^ p.BitShift, ?_, ?_, update_in_range p hlo hhi, ?_⟩
    · rw [hc]
      exact from_bits_in_range 16 (by decide) p.BitShift (by omega) (by omega)
    · exact from_bits_in_range 16 (by decide) p.BitShift (by omega) (by omega)
    · rw [toUInt32_of_nonneg _ (by omega) (by omega)]
      omega
  · intro hout
    constructor
    · by_cases hn : p.BitShift + 16 < 0
      · have := toUInt32_of_neg (p.BitShift + 16) hn (by omega)
        omega
      · rw [toUInt32_of_nonneg _ (by omega) (by omega)]
        omega
    · have hnone : from_bits 16 p.BitShift = none := by
        apply from_bits_out_of_range 16 (by decide) p.BitShift
        · push_cast; omega
        · push_cast; omega
        · push_cast; omega
      unfold AudioProcessor.update
      simp only [hnone]

/-- Witness of the amended claim C5 at the parameter value `-16`. -/
theorem update_gain_in_declared_range_witness :
    -(2 ^ 31) ≤ (-16 : Int) ∧ (-16 : Int) + 16 ≤ 2 ^ 31 - 1
    ∧ ∃ g : ℚ, from_bits 16 (clampShift (-16) (-16) 16) = some g
        ∧ from_bits 16 (-16) = some g
        ∧ AudioProcessor.update ⟨2, 2, -16, 1⟩ = some ⟨2, 2, -16, g⟩
        ∧ toUInt32 (-16 + 16) ≤ 32 :=
  ⟨by decide, by decide,
    (update_gain_in_declared_range ⟨2, 2, -16, 1⟩ (by decide) (by decide)).1
      ⟨by decide, by decide⟩⟩

/-- Claim C7: no gain state carries across blocks.  Two processor states that differ only in
the stored `gain`, with the same bit-shift `b` in `[-16, 16]` and the same input block, give
the same output block, and `gain` is `from_bits(b)` afterwards in both.  Hence, when the
bit-shift changes from `b1` to `b2` between block N and block N+1, every input sample of
block N is scaled by `from_bits(b1)` and every input sample of block N+1 by `from_bits(b2)`,
the product being that of the sample arithmetic (for `F32.arith`, the `float` product of the
source). -/
theorem processBlock_gain_not_carried {S : Type} (A : SampleArith S) (p : AudioProcessor)
    (g1 g2 : ℚ) (b2 : Int) (blockN blockN1 : AudioBuffer S)
    (hlo : -16 ≤ p.BitShift) (hhi : p.BitShift ≤ 16) (hlo2 : -16 ≤ b2) (hhi2 : b2 ≤ 16)
    (hwf : blockN.WellFormed) (h2 : 2 ≤ blockN.getNumChannels)
    (hout : p.totalNumOutputChannels ≤ p.totalNumInputChannels
      ∨ p.totalNumOutputChannels ≤ blockN.getNumChannels)
    (hwf1 : blockN1.WellFormed) (h21 : 2 ≤ blockN1.getNumChannels)
    (hout1 : p.totalNumOutputChannels ≤ p.totalNumInputChannels
      ∨ p.totalNumOutputChannels ≤ blockN1.getNumChannels) :
    AudioProcessor.processBlock A { p with gain := g1 } blockN
      = AudioProcessor.processBlock A { p with gain := g2 } blockN
    ∧ ∃ (x1 x2 : ℚ) (pN pN1 : AudioProcessor) (outN outN1 : AudioBuffer S),
      from_bits 16 p.BitShift = some x1 ∧ from_bits 16 b2 = some x2
      ∧ AudioProcessor.processBlock A { p with gain := g1 } blockN = some (pN, outN)
      ∧ AudioProcessor.processBlock A { p with gain := g2 } blockN = some (pN, outN)
      ∧ pN.gain = x1
      ∧ AudioProcessor.processBlock A { pN with BitShift := b2 } blockN1 = some (pN1, outN1)
      ∧ pN1.gain = x2
      ∧ (∀ (c i : Nat) (x : S), c < 2 →
          ¬ (p.totalNumInputChannels ≤ c ∧ c < p.totalNumOutputChannels) →
          blockN.readSample c i = some x → outN.readSample c i = some (A.mul x x1))
      ∧ (∀ (c i : Nat) (x : S), c < 2 →
          ¬ (p.totalNumInputChannels ≤ c ∧ c < p.totalNumOutputChannels) →
          blockN1.readSample c i = some x → outN1.readSample c i = some (A.mul x x2)) := by
  have hsame : AudioProcessor.processBlock A { p with gain := g1 } blockN
      = AudioProcessor.processBlock A { p with gain := g2 } blockN := by
    simp only [AudioProcessor.processBlock, AudioProcessor.clearUnusedOutputs,
      AudioProcessor.update]
  obtain ⟨outN, hrun, -, -, -, -, hscale, -⟩ :=
    processBlock_samples A { p with gain := g1 } blockN hwf h2 hout hlo hhi
  obtain ⟨outN1, hrun1, -, -, -, -, hscale1, -⟩ :=
    processBlock_samples A
      { totalNumInputChannels := p.totalNumInputChannels,
        totalNumOutputChannels := p.totalNumOutputChannels,
        BitShift := b2, gain := (2 : ℚ) ^ p.BitShift } blockN1 hwf1 h21 hout1 hlo2 hhi2
  refine ⟨hsame, (2 : ℚ) ^ p.BitShift, (2 : ℚ) ^ b2, _, _, outN, outN1,
    from_bits_in_range 16 (by decide) p.BitShift (by omega) (by omega),
    from_bits_in_range 16 (by decide) b2 (by omega) (by omega),
    hrun, hsame ▸ hrun, rfl, hrun1, rfl, hscale, hscale1⟩

/-- Witness of claim C7 in the arithmetic of the source: a stereo block processed with
bit-shift `1` from the stored gains `1` and `7`, followed by a block processed with bit-shift
`-2`. -/
theorem processBlock_gain_not_carried_witness :
    AudioProcessor.processBlock F32.arith ⟨2, 2, 1, 1⟩
        ⟨2, [[F32.fin false (1 / 2), F32.fin true (1 / 2)], [F32.fin false 3, F32.fin false 4]]⟩
      = AudioProcessor.processBlock F32.arith ⟨2, 2, 1, 7⟩
        ⟨2, [[F32.fin false (1 / 2), F32.fin true (1 / 2)], [F32.fin false 3, F32.fin false 4]]⟩
    ∧ ∃ (x1 x2 : ℚ) (pN pN1 : AudioProcessor) (outN outN1 : AudioBuffer F32),
      from_bits 16 1 = some x1 ∧ from_bits 16 (-2) = some x2
      ∧ AudioProcessor.processBlock F32.arith ⟨2, 2, 1, 1⟩
          ⟨2, [[F32.fin false (1 / 2), F32.fin true (1 / 2)],
               [F32.fin false 3, F32.fin false 4]]⟩ = some (pN, outN)
      ∧ AudioProcessor.processBlock F32.arith ⟨2, 2, 1, 7⟩
          ⟨2, [[F32.fin false (1 / 2), F32.fin true (1 / 2)],
               [F32.fin false 3, F32.fin false 4]]⟩ = some (pN, outN)
      ∧ pN.gain = x1
      ∧ AudioProcessor.processBlock F32.arith { pN with BitShift := -2 }
          ⟨1, [[F32.fin false 8], [F32.fin true 12]]⟩ = some (pN1, outN1)
      ∧ pN1.gain = x2
      ∧ (∀ (c i : Nat) (x : F32), c < 2 → ¬ (2 ≤ c ∧ c < 2) →
          AudioBuffer.readSample
            ⟨2, [[F32.fin false (1 / 2), F32.fin true (1 / 2)],
                 [F32.fin false 3, F32.fin false 4]]⟩ c i = some x →
          outN.readSample c i = some (F32.arith.mul x x1))
      ∧ (∀ (c i : Nat) (x : F32), c < 2 → ¬ (2 ≤ c ∧ c < 2) →
          AudioBuffer.readSample ⟨1, [[F32.fin false 8], [F32.fin true 12]]⟩ c i = some x →
          outN1.readSample c i = some (F32.arith.mul x x2)) :=
  processBlock_gain_not_carried F32.arith ⟨2, 2, 1, 1⟩ 1 7 (-2)
    ⟨2, [[F32.fin false (1 / 2), F32.fin true (1 / 2)], [F32.fin false 3, F32.fin false 4]]⟩
    ⟨1, [[F32.fin false 8], [F32.fin true 12]]⟩ (by decide) (by decide) (by decide) (by decide)
    (by unfold AudioBuffer.WellFormed; decide) (by decide) (Or.inl (by decide))
    (by unfold AudioBuffer.WellFormed; decide) (by decide) (Or.inl (by decide))

/-- Claim C8: for every buffer with at least two channels, every input channel count `numIn`,
every output channel count `numOut` and every bit-shift in `[-16, 16]`, after `processBlock`
every channel `c` with `numIn ≤ c < numOut` holds only zero samples, for the whole block
length, also when `c` is 0 or 1 and the scaling loop writes it after the clear.  The call
returns whenever the buffer has the output channels that the clearing loop visits, so it
returns in the stereo output layout of the source, `numOut = 2`, for every `numIn`. -/
theorem unused_outputs_silent (p : AudioProcessor) (buffer : AudioBuffer F32)
    (hwf : buffer.WellFormed) (h2 : 2 ≤ buffer.getNumChannels)
    (hlo : -16 ≤ p.BitShift) (hhi : p.BitShift ≤ 16) :
    (∀ (p2 : AudioProcessor) (out : AudioBuffer F32),
      p.processBlock F32.arith buffer = some (p2, out) →
        out.getNumSamples = buffer.getNumSamples
        ∧ out.getNumChannels = buffer.getNumChannels
        ∧ ∀ c, p.totalNumInputChannels ≤ c → c < p.totalNumOutputChannels →
            out.channels[c]? = some (List.replicate buffer.getNumSamples (F32.fin false 0)))
    ∧ ((p.totalNumOutputChannels ≤ p.totalNumInputChannels
          ∨ p.totalNumOutputChannels ≤ buffer.getNumChannels) →
        ∃ (p2 : AudioProcessor) (out : AudioBuffer F32),
          p.processBlock F32.arith buffer = some (p2, out))
    ∧ (p.totalNumOutputChannels = 2 →
        ∃ (p2 : AudioProcessor) (out : AudioBuffer F32),
          p.processBlock F32.arith buffer = some (p2, out)
          ∧ ∀ c, p.totalNumInputChannels ≤ c → c < 2 →
              out.channels[c]? = some (List.replicate buffer.getNumSamples (F32.fin false 0))) := by
  have hz : F32.arith.mul F32.arith.zero ((2 : ℚ) ^ p.BitShift) = F32.arith.zero :=
    F32.mul_zero_pos _ (zpow_pos (by norm_num) _)
  have hret : (p.totalNumOutputChannels ≤ p.totalNumInputChannels
      ∨ p.totalNumOutputChannels ≤ buffer.getNumChannels) →
      ∃ out : AudioBuffer F32,
        p.processBlock F32.arith buffer = some ({ p with gain := (2 : ℚ) ^ p.BitShift }, out)
        ∧ out.getNumSamples = buffer.getNumSamples
        ∧ out.getNumChannels = buffer.getNumChannels
        ∧ ∀ c, p.totalNumInputChannels ≤ c → c < p.totalNumOutputChannels →
            out.channels[c]? = some (List.replicate buffer.getNumSamples (F32.fin false 0)) := by
    intro hout
    obtain ⟨out, hrun, hn, hc, -, hzero, -, -⟩ :=
      processBlock_samples F32.arith p buffer hwf h2 hout hlo hhi
    exact ⟨out, hrun, hn, hc, hzero hz⟩
  have hnone : ¬ (p.totalNumOutputChannels ≤ p.totalNumInputChannels
      ∨ p.totalNumOutputChannels ≤ buffer.getNumChannels) →
      p.processBlock F32.arith buffer = none := by
    intro h
    exact processBlock_missing_channel F32.arith p buffer hwf (by omega) (by omega)
  refine ⟨?_, ?_, ?_⟩
  · intro p2 out hrun
    by_cases hout : p.totalNumOutputChannels ≤ p.totalNumInputChannels
        ∨ p.totalNumOutputChannels ≤ buffer.getNumChannels
    · obtain ⟨out2, hrun2, hn, hc, hzero⟩ := hret hout
      rw [hrun2] at hrun
      simp only [Option.some.injEq, Prod.mk.injEq] at hrun
      obtain ⟨-, e⟩ := hrun
      subst e
      exact ⟨hn, hc, hzero⟩
    · rw [hnone hout] at hrun
      exact Option.noConfusion hrun
  · intro hout
    obtain ⟨out, hrun, -⟩ := hret hout
    exact ⟨_, out, hrun⟩
  · intro h
    obtain ⟨out, hrun, -, -, hzero⟩ := hret (Or.inr (by omega))
    refine ⟨_, out, hrun, ?_⟩
    intro c hc1 hc2
    exact hzero c hc1 (by omega)

/-- Witness of claim C8: no input channel, the stereo output layout and a buffer of two
channels; channels 0 and 1, which the scaling loop writes after the clear, are silent. -/
theorem unused_outputs_silent_witness :
    AudioBuffer.WellFormed
        (⟨2, [[F32.fin false (1 / 2), F32.fin true (1 / 2)],
              [F32.fin false 3, F32.fin false 4]]⟩ : AudioBuffer F32)
    ∧ ∃ (p2 : AudioProcessor) (out : AudioBuffer F32),
      AudioProcessor.processBlock F32.arith ⟨0, 2, 4, 1⟩
          ⟨2, [[F32.fin false (1 / 2), F32.fin true (1 / 2)],
               [F32.fin false 3, F32.fin false 4]]⟩ = some (p2, out)
      ∧ ∀ c, 0 ≤ c → c < 2 →
          out.channels[c]? = some (List.replicate 2 (F32.fin false 0)) :=
  ⟨by unfold AudioBuffer.WellFormed; decide,
    (unused_outputs_silent ⟨0, 2, 4, 1⟩
      ⟨2, [[F32.fin false (1 / 2), F32.fin true (1 / 2)], [F32.fin false 3, F32.fin false 4]]⟩
      (by unfold AudioBuffer.WellFormed; decide) (by decide) (by decide) (by decide)).2.2 rfl⟩

/-- Claim C10: the gain stage is exactly invertible: for every bit-shift `b` in `[-16, 16]`
and every stereo block with channels of equal length, `processBlock` with bit-shift `b`
followed by `processBlock` with bit-shift `-b` on its output gives back the original block,
sample for sample on both channels, over exact arithmetic on the samples. -/
theorem processBlock_invertible (p : AudioProcessor) (n : Nat) (L R : List ℚ)
    (hlo : -16 ≤ p.BitShift) (hhi : p.BitShift ≤ 16)
    (hL : L.length = n) (hR : R.length = n)
    (hio : p.totalNumOutputChannels ≤ p.totalNumInputChannels) :
    ∃ (p1 p2 : AudioProcessor) (mid : AudioBuffer ℚ),
      p.processBlock exactArith ⟨n, [L, R]⟩ = some (p1, mid)
      ∧ AudioProcessor.processBlock exactArith { p1 with BitShift := -p.BitShift } mid
          = some (p2, ⟨n, [L, R]⟩) := by
  have hinv : ∀ l : List ℚ,
      (l.map (fun x => exactArith.mul x ((2 : ℚ) ^ p.BitShift))).map
          (fun x => exactArith.mul x ((2 : ℚ) ^ (-p.BitShift)))
        = l := by
    intro l
    rw [List.map_map]
    have : ((fun x => exactArith.mul x ((2 : ℚ) ^ (-p.BitShift)))
        ∘ (fun x => exactArith.mul x ((2 : ℚ) ^ p.BitShift))) = id := by
      funext x
      simp only [Function.comp_apply, id_eq, exactArith]
      rw [mul_assoc, two_zpow_mul_neg, mul_one]
    rw [this, List.map_id]
  refine ⟨_, ⟨p.totalNumInputChannels, p.totalNumOutputChannels, -p.BitShift,
    (2 : ℚ) ^ (-p.BitShift)⟩, _, processBlock_stereo exactArith p n L R hL hR hio hlo hhi, ?_⟩
  have hback := processBlock_stereo exactArith
    { totalNumInputChannels := p.totalNumInputChannels,
      totalNumOutputChannels := p.totalNumOutputChannels,
      BitShift := -p.BitShift, gain := (2 : ℚ) ^ p.BitShift } n
    (L.map (fun x => exactArith.mul x ((2 : ℚ) ^ p.BitShift)))
    (R.map (fun x => exactArith.mul x ((2 : ℚ) ^ p.BitShift)))
    (by rw [List.length_map, hL]) (by rw [List.length_map, hR]) hio
    (by show -16 ≤ -p.BitShift; omega) (by show -p.BitShift ≤ 16; omega)
  rw [hinv L, hinv R] at hback
  exact hback

/-- Witness of claim C10 at bit-shift `-16` on the block `[0.5, -0.5]`, `[3, 0]`. -/
theorem processBlock_invertible_witness :
    (-16 : Int) ≤ -16 ∧ (-16 : Int) ≤ 16
    ∧ ∃ (p1 p2 : AudioProcessor) (mid : AudioBuffer ℚ),
      AudioProcessor.processBlock exactArith ⟨2, 2, -16, 1⟩ ⟨2, [[1 / 2, -1 / 2], [3, 0]]⟩
        = some (p1, mid)
      ∧ AudioProcessor.processBlock exactArith { p1 with BitShift := -(-16) } mid
          = some (p2, ⟨2, [[1 / 2, -1 / 2], [3, 0]]⟩) :=
  ⟨by decide, by decide,
    processBlock_invertible ⟨2, 2, -16, 1⟩ 2 [1 / 2, -1 / 2] [3, 0]
      (by decide) (by decide) rfl rfl (by decide)⟩

end BitShiftGain
